import Mathlib

/-!
# Verification of the picoschema translator

A shallow embedding, in Lean 4, of `picoschema.go` from
`github.com/jumonapp/picoschema`: the translation of picoschema shorthand
(a dynamic YAML-like value tree) into a JSON-Schema object, together with
proofs about the claims of the specification.

Modelling conventions:

* Go strings are modelled as `List Char` (`Str`).  All the string
  operations the source uses (`strings.Cut`, `strings.CutSuffix`,
  `strings.TrimSuffix`, `strings.TrimSpace`) take single-character
  separators or suffixes at their call sites, so they are modelled with a
  single separator character.
* The dynamic value tree (the result of YAML decoding, Go type `any`) is
  the inductive `PValue`.  A Go `map[string]any` is modelled by the list
  of its entries *in the order Go's `range` enumerates them*: Go map
  iteration order is unspecified, so a fact about "the map" must hold for
  every enumeration (every permutation of the authored entries), and a
  nondeterministic outcome is exhibited by choosing an enumeration.
* `jsonschema.Schema` (an external, fixed target structure) is modelled by
  `Schema`, restricted to the fields the translator and the claims
  exercise.  The unexported boolean of `jsonschema.FalseSchema` is the
  `boolFalse` field.
* Go's `(result, error)` pairs: the two inner converters (`parsePico`,
  `mapToJSONSchema`) return exactly one of a schema or an error on every
  path, so they are embedded with `Except`; the top-level `ToJSONSchema`
  additionally has the `return nil, nil` path for a null input, so it is
  embedded as an explicit pair `Option Schema × Option Err`, each `return`
  of the Go source mapping to the corresponding pair.
* Error values: each `fmt.Errorf` call site of the source is one
  constructor of `Err`, carrying the data interpolated into the message.
-/

/-- A Go string, as its list of characters. -/
abbrev Str := List Char

/-- The result of Go `strings.Cut`: the part before the separator, the part
after it, and whether the separator was found. -/
structure CutR where
  before : Str
  after : Str
  found : Bool
deriving DecidableEq

/-- Go `strings.Cut(s, sep)` for a single-character separator: split around
the first occurrence of `sep`. -/
def cut (sep : Char) : Str → CutR
  | [] => ⟨[], [], false⟩
  | c :: rest =>
    if c = sep then ⟨[], rest, true⟩
    else
      let r := cut sep rest
      ⟨c :: r.before, r.after, r.found⟩

/-- Go `strings.CutSuffix(s, suffix)` for a single-character suffix:
the string without the suffix, and whether the suffix was present. -/
def cutSuffix1 (c : Char) (s : Str) : Str × Bool :=
  match s.reverse with
  | [] => (s, false)
  | d :: rest => if d = c then (rest.reverse, true) else (s, false)

/-- Go `strings.TrimSuffix(s, suffix)` for a single-character suffix. -/
def trimSuffix1 (c : Char) (s : Str) : Str :=
  (cutSuffix1 c s).1

/-- The white-space characters trimmed by Go `strings.TrimSpace`
(`unicode.IsSpace`). -/
def goIsSpace (c : Char) : Bool :=
  c = ' ' ∨ c = '\t' ∨ c = '\n' ∨ c = (Char.ofNat 11) ∨ c = (Char.ofNat 12) ∨
    c = '\r' ∨ c = (Char.ofNat 0x85) ∨ c = (Char.ofNat 0xA0) ∨
    c = (Char.ofNat 0x1680) ∨ (0x2000 ≤ c.toNat ∧ c.toNat ≤ 0x200A) ∨
    c = (Char.ofNat 0x2028) ∨ c = (Char.ofNat 0x2029) ∨
    c = (Char.ofNat 0x202F) ∨ c = (Char.ofNat 0x205F) ∨ c = (Char.ofNat 0x3000)

/-- Go `strings.TrimSpace`: remove leading and trailing white space. -/
def trimSpace (s : Str) : Str :=
  ((s.dropWhile goIsSpace).reverse.dropWhile goIsSpace).reverse

/-- The dynamic value tree produced by YAML decoding (Go `any`).
`int` stands for the signed integer kinds (`int`, `int8`, …, `int64`),
`uint` for the unsigned kinds (`uint`, …, `uint64`, `uintptr`), `float`
for `float64` (its payload is carried opaquely and never interpreted).
A `map` carries the entries of a Go `map[string]any` in the order `range`
enumerates them. -/
inductive PValue where
  | null
  | bool (b : Bool)
  | int (n : Int)
  | uint (n : Nat)
  | float (q : Rat)
  | str (s : Str)
  | list (xs : List PValue)
  | map (es : List (Str × PValue))

/-- The non-recursive fields of `jsonschema.Schema` that the translator
exercises.  `boolFalse` models the unexported `boolean` field that
distinguishes `jsonschema.FalseSchema`; `maximum` and `minimum` are
`json.Number` fields and hold the source string. -/
structure SBase where
  type : Str := []
  description : Str := []
  enum : Option (List PValue) := none
  required : List Str := []
  boolFalse : Bool := false
  title : Str := []
  format : Str := []
  pattern : Str := []
  maximum : Str := []
  minimum : Str := []
  exclusiveMaximum : Str := []
  exclusiveMinimum : Str := []
  minLength : Option Nat := none
  maxLength : Option Nat := none
  minItems : Option Nat := none
  maxItems : Option Nat := none
  uniqueItems : Bool := false
  deprecated : Bool := false
  readOnly : Bool := false
  writeOnly : Bool := false
  defaultVal : Option PValue := none

/-- The model of `jsonschema.Schema`: the non-recursive fields plus the
three recursive ones the translator uses (`Properties` — an ordered map,
kept as a list of entries in insertion order —, `Items`, and
`AdditionalProperties`). -/
inductive Schema where
  | mk (base : SBase) (properties : Option (List (Str × Schema)))
      (items : Option Schema) (additionalProperties : Option Schema)

/-- The `base` projection of a `Schema`. -/
def Schema.base : Schema → SBase
  | .mk b _ _ _ => b

/-- The `Properties` field (an ordered map, as an entry list). -/
def Schema.properties : Schema → Option (List (Str × Schema))
  | .mk _ p _ _ => p

/-- The `Items` field. -/
def Schema.items : Schema → Option Schema
  | .mk _ _ i _ => i

/-- The `AdditionalProperties` field. -/
def Schema.additionalProperties : Schema → Option Schema
  | .mk _ _ _ a => a

/-- Replace the non-recursive fields of a schema. -/
def withBase : Schema → SBase → Schema
  | .mk _ p i a, b => .mk b p i a

/-- Model of `jsonschema.FalseSchema`: the boolean `false` schema. -/
def falseSchema : Schema := .mk { boolFalse := true } none none none

/-- The zero `jsonschema.Schema` value (`var ret jsonschema.Schema`). -/
def emptySchema : Schema := .mk {} none none none

/-- Model of `OrderedMap.Set`: update the value in place if the key is present
(keeping its position), otherwise append the new entry at the end. -/
def omSet {α : Type} (k : Str) (v : α) : List (Str × α) → List (Str × α)
  | [] => [(k, v)]
  | (k', v') :: rest =>
    if k' = k then (k, v) :: rest else (k', v') :: omSet k v rest

/-- Model of `ret.Properties.Set(k, v)` on the schema under construction. -/
def setPropIn (s : Schema) (k : Str) (v : Schema) : Schema :=
  match s with
  | .mk b p i a => .mk b (some (omSet k v (p.getD []))) i a

/-- Set the `Items` field. -/
def setItems (s : Schema) (i : Option Schema) : Schema :=
  match s with
  | .mk b p _ a => .mk b p i a

/-- Set the `AdditionalProperties` field. -/
def setAddProps (s : Schema) (a : Option Schema) : Schema :=
  match s with
  | .mk b p i _ => .mk b p i a

/-- Set the `Properties` field wholesale (structural-mapper path). -/
def setProperties (s : Schema) (p : Option (List (Str × Schema))) : Schema :=
  match s with
  | .mk b _ i a => .mk b p i a

/-- One constructor per `fmt.Errorf` call site of the source. -/
inductive Err where
  /-- "value %v of type %T is not an object, slice or string" -/
  | notObjectSliceString (v : PValue)
  /-- "unsupported scalar type %q" -/
  | unsupportedScalarType (typ : Str)
  /-- "enum value %v is not an array" -/
  | enumNotArray (s : Schema)
  /-- "parenthetical type %q is none of {object, array, enum, *}" -/
  | parentheticalType (typ : Str)
  /-- "unrecognized JSON schema field name %q" -/
  | unrecognizedField (k : Str)
  /-- "found type %T for field %q, want string" (string and `json.Number`
  fields) -/
  | wantString (k : Str) (v : PValue)
  /-- "found type %T for field %q, want an integer type" -/
  | wantInteger (k : Str) (v : PValue)
  /-- "found type %T for field %q, want bool" -/
  | wantBool (k : Str) (v : PValue)
  /-- "found type %T for field %q, want []any" -/
  | wantList (k : Str) (v : PValue)
  /-- "found type %T for field element %d of %q, want string" -/
  | wantStringElem (k : Str) (i : Nat) (v : PValue)
  /-- "found type %T for field %q, want map[string]any" -/
  | wantMap (k : Str) (v : PValue)
  /-- "found type %T for field %q, want []map[string]any" -/
  | wantMapList (k : Str) (v : PValue)
  /-- "found type %T for field %q key %q, want map[string]any" -/
  | wantMapForKey (k : Str) (mk : Str) (v : PValue)
  /-- "failed to convert field %q: %w" -/
  | failedConvertField (k : Str) (e : Err)
  /-- "error in field %q: %w" -/
  | errorInField (k : Str) (e : Err)
  /-- "error in field %q key %q: %w" -/
  | errorInFieldKey (k : Str) (mk : Str) (e : Err)
  /-- "unsupported JSONSchema field type %s for field %q" -/
  | unsupportedFieldType (k : Str)

mutual

/-- Model of `parsePico`: parse picoschema shorthand from a dynamic value
(`picoschema.go`, `parsePico`).  A string is a scalar type token with an
optional description after the first comma; a sequence is an enum; a
mapping is an object parsed entry by entry; anything else is an error. -/
def parsePico : PValue → Except Err Schema
  | .str val =>
    match cut ',' val with
    | ⟨typ, desc, found⟩ =>
      if typ = "string".data ∨ typ = "boolean".data ∨ typ = "null".data ∨
          typ = "number".data ∨ typ = "integer".data ∨ typ = "any".data then
        .ok (.mk { type := if typ = "any".data then [] else typ,
                   description := if found then trimSpace desc else [] }
          none none none)
      else
        .error (.unsupportedScalarType typ)
  | .list val => .ok (.mk { enum := some val } none none none)
  | .map val =>
    parseEntries val
      (.mk { type := "object".data } (some []) none (some falseSchema))
  | v => .error (.notObjectSliceString v)

/-- The body of `parsePico`'s `for k, v := range val` loop over the entries
of a shorthand mapping, with `ret` the object schema under construction.
The loop of the source is unrolled so that each arm of the modifier switch
carries its own copy of the shared tail (`if found { … Description … };
ret.Properties.Set(...)`). -/
def parseEntries : List (Str × PValue) → Schema → Except Err Schema
  | [], ret => .ok ret
  | (k, v) :: rest, ret =>
    match cut '(' k with
    | ⟨name, typ0, foundParen⟩ =>
      match cutSuffix1 '?' name with
      | (propertyName, isOptional) =>
        let ret :=
          if name ≠ [] ∧ isOptional = false then
            withBase ret { ret.base with
                           required := ret.base.required ++ [propertyName] }
          else ret
        match parsePico v with
        | .error e => .error e
        | .ok property =>
          if foundParen = false then
            parseEntries rest (setPropIn ret propertyName property)
          else
            match cut ',' (trimSuffix1 ')' (trimSuffix1 ')' typ0)) with
            | ⟨typ, desc, foundComma⟩ =>
              if typ = "array".data then
                let property :=
                  Schema.mk { type := "array".data } none (some property) none
                let property :=
                  if foundComma then
                    withBase property
                      { property.base with description := trimSpace desc }
                  else property
                parseEntries rest (setPropIn ret propertyName property)
              else if typ = "object".data then
                let property :=
                  if foundComma then
                    withBase property
                      { property.base with description := trimSpace desc }
                  else property
                parseEntries rest (setPropIn ret propertyName property)
              else if typ = "enum".data then
                match property.base.enum with
                | none => .error (.enumNotArray property)
                | some xs =>
                  let property :=
                    if isOptional then
                      withBase property
                        { property.base with enum := some (xs ++ [.null]) }
                    else property
                  let property :=
                    if foundComma then
                      withBase property
                        { property.base with description := trimSpace desc }
                    else property
                  parseEntries rest (setPropIn ret propertyName property)
              else if typ = "*".data then
                parseEntries rest (setAddProps ret (some property))
              else
                .error (.parentheticalType typ)

end

/-- Convert a dynamic list to `[]string` for the `Required` field
(`mapToJSONSchema`, `[]string` case): every element must be a string;
a non-string element is an indexed type-mismatch error.  `i` is the index
of the first element of the remaining list. -/
def toStrList (k : Str) (i : Nat) : List PValue → Except Err (List Str)
  | [] => .ok []
  | .str s :: rest =>
    match toStrList k (i + 1) rest with
    | .error e => .error e
    | .ok ss => .ok (s :: ss)
  | v :: _ => .error (.wantStringElem k i v)

/-- The uint conversion of `mapToJSONSchema`'s `*uint64` case: unsigned
integer kinds are stored as they are, signed integer kinds are converted
with Go's `uint64(...)` two's-complement wraparound (a negative value
becomes `2^64 + n`), and every other kind is a type-mismatch error.
Machine `uint64` values are modelled as naturals reduced mod `2^64`. -/
def convUint (k : Str) : PValue → Except Err Nat
  | .uint n => .ok (n % 2 ^ 64)
  | .int n => .ok ((n % (2 ^ 64 : Int)).toNat)
  | v => .error (.wantInteger k v)

mutual

/-- The body of `mapToJSONSchema`'s `for k, v := range m` loop.  The
reflective dispatch of the source (struct-tag table + `switch rf.Type()`)
is modelled by a fixed table keyed on the JSON field name: it covers the
`jsonschema.Schema` fields that `SBase`/`Schema` model; the `enum` field
(Go type `[]any`) matches no arm of the source's type switch and hits its
`default` ("unsupported JSONSchema field type"), and any name outside the
table is "unrecognized JSON schema field name". -/
def mapFields : List (Str × PValue) → Schema → Except Err Schema
  | [], acc => .ok acc
  | (k, v) :: rest, acc =>
    if k = "type".data ∨ k = "description".data ∨ k = "title".data ∨
        k = "format".data ∨ k = "pattern".data then
      -- string-typed fields
      match v with
      | .str s =>
        let b := acc.base
        let b :=
          if k = "type".data then { b with type := s }
          else if k = "description".data then { b with description := s }
          else if k = "title".data then { b with title := s }
          else if k = "format".data then { b with format := s }
          else { b with pattern := s }
        mapFields rest (withBase acc b)
      | _ => .error (.wantString k v)
    else if k = "maximum".data ∨ k = "minimum".data ∨
        k = "exclusiveMaximum".data ∨ k = "exclusiveMinimum".data then
      -- json.Number fields: the source requires a string input
      match v with
      | .str s =>
        let b := acc.base
        let b :=
          if k = "maximum".data then { b with maximum := s }
          else if k = "minimum".data then { b with minimum := s }
          else if k = "exclusiveMaximum".data then { b with exclusiveMaximum := s }
          else { b with exclusiveMinimum := s }
        mapFields rest (withBase acc b)
      | _ => .error (.wantString k v)
    else if k = "minLength".data ∨ k = "maxLength".data ∨
        k = "minItems".data ∨ k = "maxItems".data then
      -- *uint64 fields
      match convUint k v with
      | .error e => .error e
      | .ok n =>
        let b := acc.base
        let b :=
          if k = "minLength".data then { b with minLength := some n }
          else if k = "maxLength".data then { b with maxLength := some n }
          else if k = "minItems".data then { b with minItems := some n }
          else { b with maxItems := some n }
        mapFields rest (withBase acc b)
    else if k = "uniqueItems".data ∨ k = "deprecated".data ∨
        k = "readOnly".data ∨ k = "writeOnly".data then
      -- bool fields
      match v with
      | .bool bv =>
        let b := acc.base
        let b :=
          if k = "uniqueItems".data then { b with uniqueItems := bv }
          else if k = "deprecated".data then { b with deprecated := bv }
          else if k = "readOnly".data then { b with readOnly := bv }
          else { b with writeOnly := bv }
        mapFields rest (withBase acc b)
      | _ => .error (.wantBool k v)
    else if k = "required".data then
      -- []string field
      match v with
      | .list xs =>
        match toStrList k 0 xs with
        | .error e => .error e
        | .ok ss => mapFields rest (withBase acc { acc.base with required := ss })
      | _ => .error (.wantList k v)
    else if k = "default".data then
      -- `any` field: stored verbatim
      mapFields rest (withBase acc { acc.base with defaultVal := some v })
    else if k = "items".data ∨ k = "additionalProperties".data then
      -- *jsonschema.Schema fields
      match mapSchemaField k v with
      | .error e => .error e
      | .ok schema =>
        if k = "items".data then mapFields rest (setItems acc (some schema))
        else mapFields rest (setAddProps acc (some schema))
    else if k = "properties".data then
      -- ordered map of *jsonschema.Schema
      match mapPropsField k v with
      | .error e => .error e
      | .ok om => mapFields rest (setProperties acc (some om))
    else if k = "enum".data then
      .error (.unsupportedFieldType k)
    else
      .error (.unrecognizedField k)

/-- The `*jsonschema.Schema` field case of `mapToJSONSchema`: the value
must be a mapping, converted recursively; a nested error is wrapped with
the field name ("failed to convert field"). -/
def mapSchemaField (k : Str) : PValue → Except Err Schema
  | .map m =>
    match mapFields m emptySchema with
    | .error e => .error (.failedConvertField k e)
    | .ok s => .ok s
  | v => .error (.wantMap k v)

/-- The ordered-map-of-schemas (`properties`) field case of
`mapToJSONSchema`: the value must be a mapping. -/
def mapPropsField (k : Str) : PValue → Except Err (List (Str × Schema))
  | .map m => mapProps k m []
  | v => .error (.wantMap k v)

/-- The inner `for mk, mv := range m` loop of `mapToJSONSchema`'s
`properties` case: every value is converted by `mapPropVal` and inserted
with `OrderedMap.Set`. -/
def mapProps (k : Str) : List (Str × PValue) → List (Str × Schema) →
    Except Err (List (Str × Schema))
  | [], om => .ok om
  | (mk, mv) :: rest, om =>
    match mapPropVal k mk mv with
    | .error e => .error e
    | .ok schema => mapProps k rest (omSet mk schema om)

/-- One value of the `properties` mapping: must itself be a mapping,
converted recursively; a nested error is wrapped with the field name and
the sub-key ("error in field … key …"). -/
def mapPropVal (k mk : Str) : PValue → Except Err Schema
  | .map mvm =>
    match mapFields mvm emptySchema with
    | .error e => .error (.errorInFieldKey k mk e)
    | .ok s => .ok s
  | v => .error (.wantMapForKey k mk v)

end

/-- Model of `mapToJSONSchema`: convert a dynamic mapping that already looks like a
JSON schema into a `Schema`, field by field (`picoschema.go`,
`mapToJSONSchema`).  The entry list is one `range` enumeration of the Go
map; the function runs the field loop on the zero schema value. -/
def mapToJSONSchema (es : List (Str × PValue)) : Except Err Schema :=
  mapFields es emptySchema

/-- Go map lookup `m[k]` on a `range` enumeration of the map. -/
def lookupV (k : Str) : List (Str × PValue) → Option PValue
  | [] => none
  | (k', v) :: rest => if k' = k then some v else lookupV k rest

/-- Whether `m["type"]` is one of the seven recognized JSON-Schema type
names (`ToJSONSchema`'s `switch m["type"]`; an absent key yields Go `nil`,
which matches no case). -/
def isSevenType : Option PValue → Bool
  | some (.str s) =>
    if s = "string".data ∨ s = "boolean".data ∨ s = "null".data ∨
        s = "number".data ∨ s = "integer".data ∨ s = "object".data ∨
        s = "array".data then true
    else false
  | _ => false

/-- Set the `Type` field (`s.Type = "object"` in `ToJSONSchema`). -/
def setType (s : Schema) (t : Str) : Schema :=
  withBase s { s.base with type := t }

/-- Map an `Except` result onto Go's `(*Schema, error)` pair. -/
def pairOfExcept : Except Err Schema → Option Schema × Option Err
  | .ok s => (some s, none)
  | .error e => (none, some e)

/-- Model of `ToJSONSchema`: the top-level entry point (`picoschema.go`,
`ToJSONSchema`).  The result models Go's `(*jsonschema.Schema, error)`
pair: a `nil` input returns `(nil, nil)`; a mapping whose `type` is one of
the seven recognized names, or which has a mapping-valued `properties`
key, goes to the structural mapper (with the type forced to `object` in
the second case); everything else goes to the shorthand parser. -/
def ToJSONSchema : PValue → Option Schema × Option Err
  | .null => (none, none)
  | .map es =>
    if isSevenType (lookupV "type".data es) then
      pairOfExcept (mapToJSONSchema es)
    else
      match lookupV "properties".data es with
      | some (.map _) =>
        match mapToJSONSchema es with
        | .error e => (none, some e)
        | .ok s => (some (setType s "object".data), none)
      | _ => pairOfExcept (parsePico (.map es))
  | v => pairOfExcept (parsePico v)

mutual

/-- Model of `sortSchemaSlices`: recursively sort the `Required` list and recurse
into `Properties` values and `Items` (`picoschema.go`,
`sortSchemaSlices`).  The in-place mutation of the source is modelled
functionally; `slices.Sort` on `[]string` is modelled by an insertion sort
under the lexicographic order, which produces the same (unique) sorted
list. -/
def sortSchemaSlices : Schema → Schema
  | .mk b props items addl =>
    .mk { b with required := b.required.insertionSort (· ≤ ·) }
      (match props with
       | none => none
       | some l => some (sortProps l))
      (match items with
       | none => none
       | some i => some (sortSchemaSlices i))
      addl

/-- The `for p := s.Properties.Oldest(); …` recursion of
`sortSchemaSlices`. -/
def sortProps : List (Str × Schema) → List (Str × Schema)
  | [] => []
  | (k, s) :: rest => (k, sortSchemaSlices s) :: sortProps rest

end

mutual

/-- Modelled from the spec: the generic encode/decode pair consumed by the
Schema Normalizer (spec §6) — `json.Marshal` followed by `json.Unmarshal`
into a dynamic value — is an external collaborator, not part of this
repository's source.  It is modelled as a direct encoding of a schema
into the dynamic value representation: the boolean `false` schema encodes
as the boolean `false`, and otherwise the set fields are emitted as a
mapping (empty/unset fields omitted, matching `omitempty`). -/
def jencode : Schema → PValue
  | .mk b props items addl =>
    if b.boolFalse then .bool false
    else
      .map
        ((if b.type = [] then [] else [("type".data, PValue.str b.type)]) ++
         (if b.description = [] then []
          else [("description".data, PValue.str b.description)]) ++
         (match b.enum with
          | none => []
          | some xs => [("enum".data, PValue.list xs)]) ++
         (match props with
          | none => []
          | some l => [("properties".data, PValue.map (jencodeProps l))]) ++
         (match items with
          | none => []
          | some i => [("items".data, jencode i)]) ++
         (if b.required = [] then []
          else [("required".data, PValue.list (b.required.map PValue.str))]) ++
         (match addl with
          | none => []
          | some a => [("additionalProperties".data, jencode a)]) ++
         (match b.minLength with
          | none => []
          | some n => [("minLength".data, PValue.uint n)]) ++
         (match b.maxLength with
          | none => []
          | some n => [("maxLength".data, PValue.uint n)]) ++
         (match b.defaultVal with
          | none => []
          | some v => [("default".data, v)]))

/-- Encode the `Properties` entries in order. -/
def jencodeProps : List (Str × Schema) → List (Str × PValue)
  | [] => []
  | (k, s) :: rest => (k, jencode s) :: jencodeProps rest

end

/-- Model of `ConvertSchema`: normalize (sort the slices) and round-trip through
the generic encode/decode to a canonical dynamic value (`picoschema.go`,
`ConvertSchema`).  In Go the sort mutates its argument in place; the
functional model returns the encoding of the sorted schema, and "calling
`ConvertSchema` twice on the same node" is `ConvertSchema
(sortSchemaSlices s)` after `ConvertSchema s`.  The marshal error path
cannot fire in the model (the encoder is total), so the result is the
value alone. -/
def ConvertSchema (s : Schema) : PValue :=
  jencode (sortSchemaSlices s)

/-- The part of a shorthand key before the first `(` (the `name` of the
source's entry loop). -/
def entryName (k : Str) : Str :=
  (cut '(' k).before

/-- The property name of a shorthand key: the name with a trailing `?`
stripped. -/
def entryPropName (k : Str) : Str :=
  (cutSuffix1 '?' (entryName k)).1

/-- Whether a shorthand key carries the optional marker `?` at the end of
its name part. -/
def entryOptional (k : Str) : Bool :=
  (cutSuffix1 '?' (entryName k)).2

/-- Whether a shorthand key carries the parenthetical modifier `*`
(computed exactly as the entry loop computes `typ`). -/
def isWildcardKey (k : Str) : Bool :=
  (cut '(' k).found &&
    decide ((cut ',' (trimSuffix1 ')' (trimSuffix1 ')' (cut '(' k).after))).before
      = "*".data)

/-- A `*`-modified entry whose name part is empty or optional (such an
entry contributes nothing to `Required`). -/
def wildOK (k : Str) : Bool :=
  !(isWildcardKey k) || (decide (entryName k = []) || entryOptional k)

/-- The names the entry loop appends to `Required`, in entry order: one
for each entry whose name part is non-empty and not optional. -/
def reqNames : List (Str × PValue) → List Str
  | [] => []
  | (k, _) :: rest =>
    if entryName k ≠ [] ∧ entryOptional k = false then
      entryPropName k :: reqNames rest
    else
      reqNames rest

/-- The property names of the entries that are stored under a name (all
entries except `*`-modified ones), in entry order, duplicates kept. -/
def nonWildNames : List (Str × PValue) → List Str
  | [] => []
  | (k, _) :: rest =>
    if isWildcardKey k then nonWildNames rest
    else entryPropName k :: nonWildNames rest

/-- Insert names one by one into an ordered key list the way
`OrderedMap.Set` does: a name already present keeps its position, a new
name is appended.  `addNew [] ns` is the first-seen dedup of `ns`. -/
def addNew (ks : List Str) : List Str → List Str
  | [] => ks
  | n :: ns => addNew (if n ∈ ks then ks else ks ++ [n]) ns

/-- The ordered key list of an optional ordered map. -/
def propKeysOf {α : Type} : Option (List (Str × α)) → List Str
  | none => []
  | some l => l.map Prod.fst

/-- The ordered key list of a schema's `Properties`. -/
def schemaPropKeys (s : Schema) : List Str :=
  propKeysOf s.properties

mutual

/-- Input well-formedness for the `Required ⊆ Properties` invariant: every
`*`-modified entry of every mapping in the value has an empty or optional
name part.  (List elements are never parsed as schemas — a sequence
becomes an enum of literals — so only mapping values are constrained.) -/
def wfWild : PValue → Bool
  | .map es => wfWildE es
  | _ => true

/-- Predicate `wfWild` over the entries of a mapping. -/
def wfWildE : List (Str × PValue) → Bool
  | [] => true
  | (k, v) :: rest => wildOK k && wfWild v && wfWildE rest

end

mutual

/-- The claimed invariant of the data model, as a decidable predicate over
the whole result tree: every schema node of type `object` has a `Required`
list contained in its `Properties` keys (children reached through
`Properties`, `Items` and `AdditionalProperties` included). -/
def reqSubset : Schema → Bool
  | .mk b p i a =>
    (if b.type = "object".data then
       b.required.all (fun r => decide (r ∈ propKeysOf p))
     else true) &&
      reqSubsetP p && reqSubsetO i && reqSubsetO a

/-- Predicate `reqSubset` on an optional child. -/
def reqSubsetO : Option Schema → Bool
  | none => true
  | some s => reqSubset s

/-- Predicate `reqSubset` on an optional `Properties` map. -/
def reqSubsetP : Option (List (Str × Schema)) → Bool
  | none => true
  | some l => reqSubsetL l

/-- Predicate `reqSubset` on the entries of a `Properties` map. -/
def reqSubsetL : List (Str × Schema) → Bool
  | [] => true
  | (_, s) :: rest => reqSubset s && reqSubsetL rest

end

mutual

/-- Input condition for the enum invariant: every sequence value occurring
in the input is non-empty. -/
def neLists : PValue → Bool
  | .list xs =>
    (match xs with
     | [] => false
     | _ :: _ => true) && neListsL xs
  | .map es => neListsE es
  | _ => true

/-- Predicate `neLists` over the elements of a sequence. -/
def neListsL : List PValue → Bool
  | [] => true
  | v :: rest => neLists v && neListsL rest

/-- Predicate `neLists` over the entries of a mapping. -/
def neListsE : List (Str × PValue) → Bool
  | [] => true
  | (_, v) :: rest => neLists v && neListsE rest

end

mutual

/-- The claimed enum invariant, as a decidable predicate over the whole
result tree: every node that carries an `Enum` carries a non-empty one. -/
def enumsNonempty : Schema → Bool
  | .mk b p i a =>
    (match b.enum with
     | none => true
     | some [] => false
     | some (_ :: _) => true) &&
      enumsNonemptyP p && enumsNonemptyO i && enumsNonemptyO a

/-- Predicate `enumsNonempty` on an optional child. -/
def enumsNonemptyO : Option Schema → Bool
  | none => true
  | some s => enumsNonempty s

/-- Predicate `enumsNonempty` on an optional `Properties` map. -/
def enumsNonemptyP : Option (List (Str × Schema)) → Bool
  | none => true
  | some l => enumsNonemptyL l

/-- Predicate `enumsNonempty` on the entries of a `Properties` map. -/
def enumsNonemptyL : List (Str × Schema) → Bool
  | [] => true
  | (_, s) :: rest => enumsNonempty s && enumsNonemptyL rest

end

/-! ## Helper lemmas -/

@[simp] theorem base_withBase (s : Schema) (b : SBase) :
    (withBase s b).base = b := by
  cases s; rfl

@[simp] theorem properties_withBase (s : Schema) (b : SBase) :
    (withBase s b).properties = s.properties := by
  cases s; rfl

@[simp] theorem items_withBase (s : Schema) (b : SBase) :
    (withBase s b).items = s.items := by
  cases s; rfl

@[simp] theorem addl_withBase (s : Schema) (b : SBase) :
    (withBase s b).additionalProperties = s.additionalProperties := by
  cases s; rfl

@[simp] theorem base_setPropIn (s : Schema) (k : Str) (v : Schema) :
    (setPropIn s k v).base = s.base := by
  cases s; rfl

@[simp] theorem properties_setPropIn (s : Schema) (k : Str) (v : Schema) :
    (setPropIn s k v).properties = some (omSet k v (s.properties.getD [])) := by
  cases s; rfl

@[simp] theorem items_setPropIn (s : Schema) (k : Str) (v : Schema) :
    (setPropIn s k v).items = s.items := by
  cases s; rfl

@[simp] theorem addl_setPropIn (s : Schema) (k : Str) (v : Schema) :
    (setPropIn s k v).additionalProperties = s.additionalProperties := by
  cases s; rfl

@[simp] theorem base_setAddProps (s : Schema) (a : Option Schema) :
    (setAddProps s a).base = s.base := by
  cases s; rfl

@[simp] theorem properties_setAddProps (s : Schema) (a : Option Schema) :
    (setAddProps s a).properties = s.properties := by
  cases s; rfl

@[simp] theorem items_setAddProps (s : Schema) (a : Option Schema) :
    (setAddProps s a).items = s.items := by
  cases s; rfl

@[simp] theorem addl_setAddProps (s : Schema) (a : Option Schema) :
    (setAddProps s a).additionalProperties = a := by
  cases s; rfl

@[simp] theorem base_setType (s : Schema) (t : Str) :
    (setType s t).base = { s.base with type := t } := by
  cases s; rfl

theorem pairOfExcept_iff (r : Except Err Schema) :
    ((pairOfExcept r).1.isSome = true ↔ (pairOfExcept r).2 = none) := by
  cases r <;> simp [pairOfExcept]

/-- Lemma: `strings.Cut` leaves a string whole when the separator does not occur. -/
theorem cut_not_mem {c : Char} : ∀ {l : Str}, c ∉ l → cut c l = ⟨l, [], false⟩
  | [], _ => rfl
  | a :: l, h => by
    have ha : a ≠ c := fun e => h (e ▸ List.mem_cons_self a l)
    have hl : c ∉ l := fun e => h (List.mem_cons_of_mem a e)
    simp [cut, ha, cut_not_mem hl]

/-- Lemma: `strings.Cut` splits at the first occurrence of the separator. -/
theorem cut_append {c : Char} : ∀ {l : Str}, c ∉ l → ∀ d : Str,
    cut c (l ++ c :: d) = ⟨l, d, true⟩
  | [], _, d => by simp [cut]
  | a :: l, h, d => by
    have ha : a ≠ c := fun e => h (e ▸ List.mem_cons_self a l)
    have hl : c ∉ l := fun e => h (List.mem_cons_of_mem a e)
    simp [cut, ha, cut_append hl d]

/-- Lemma: `strings.CutSuffix` strips a trailing single-character suffix. -/
theorem cutSuffix1_append (c : Char) (l : Str) :
    cutSuffix1 c (l ++ [c]) = (l, true) := by
  simp [cutSuffix1]

/-- The key order produced by `OrderedMap.Set`: an existing key keeps its
position, a new key is appended. -/
theorem map_fst_omSet {α : Type} (k : Str) (v : α) (l : List (Str × α)) :
    (omSet k v l).map Prod.fst =
      if k ∈ l.map Prod.fst then l.map Prod.fst else l.map Prod.fst ++ [k] := by
  induction l with
  | nil =>
    rw [show omSet k v ([] : List (Str × α)) = [(k, v)] from rfl]
    simp
  | cons e rest ih =>
    obtain ⟨k', v'⟩ := e
    rw [show omSet k v ((k', v') :: rest) =
      if k' = k then (k, v) :: rest else (k', v') :: omSet k v rest from rfl]
    by_cases hk : k' = k
    · subst hk
      rw [if_pos rfl, List.map_cons, List.map_cons,
        if_pos (List.mem_cons_self k' (rest.map Prod.fst))]
    · have hk2 : k ≠ k' := fun e => hk e.symm
      rw [if_neg hk]
      simp only [List.map_cons]
      rw [ih]
      by_cases hm : k ∈ rest.map Prod.fst
      · simp [hm, hk2]
      · simp [hm, hk2]

/-! ## C4 -/

/-- C4, counterexample: in a structural-mapper input, binding the
unsigned-integer-shaped field `minLength` to the signed integer `-1` does
not produce a type-mismatch error — it succeeds, storing the wrapped
value `2^64 - 1`; and binding it to the (integer-valued, non-negative)
float `3.0` fails, contradicting the claimed iff in both directions. -/
theorem c4_counterexample :
    mapToJSONSchema [("minLength".data, .int (-1))] =
      .ok (.mk { minLength := some 18446744073709551615 } none none none) ∧
    mapToJSONSchema [("minLength".data, .float 3)] =
      .error (.wantInteger "minLength".data (.float 3)) := ⟨rfl, rfl⟩

/-- C4, amended: conversion of an unsigned-integer-shaped field
(`minLength`) succeeds iff the bound value is of a signed or unsigned
integer kind: an unsigned value is stored reduced mod `2^64`, a signed
value (negative included) is stored with Go's `uint64(...)`
two's-complement wraparound, and a value of any other kind — a float even
when integer-valued — is rejected with the "want an integer type"
error. -/
theorem c4_amended : ∀ (v : PValue),
    (∀ n : Nat, v = .uint n →
      mapToJSONSchema [("minLength".data, v)] =
        .ok (.mk { minLength := some (n % 2 ^ 64) } none none none)) ∧
    (∀ n : Int, v = .int n →
      mapToJSONSchema [("minLength".data, v)] =
        .ok (.mk { minLength := some ((n % (2 ^ 64 : Int)).toNat) } none none none)) ∧
    ((∀ n : Nat, v ≠ .uint n) → (∀ n : Int, v ≠ .int n) →
      mapToJSONSchema [("minLength".data, v)] =
        .error (.wantInteger "minLength".data v)) := by
  intro v
  refine ⟨?_, ?_, ?_⟩
  · rintro n rfl
    rfl
  · rintro n rfl
    rfl
  · intro hu hi
    cases v with
    | uint n => exact absurd rfl (hu n)
    | int n => exact absurd rfl (hi n)
    | null => rfl
    | bool b => rfl
    | float q => rfl
    | str s => rfl
    | list xs => rfl
    | map es => rfl

/-- C4, witness for the amended theorem at the input `minLength: -5`. -/
theorem c4_witness :
    mapToJSONSchema [("minLength".data, .int (-5))] =
      .ok (.mk { minLength := some 18446744073709551611 } none none none) :=
  (c4_amended (.int (-5))).2.1 (-5) rfl

/-! ## C1 -/

/-- C1, counterexample: the bare key `"*"` (no parenthetical) mapped to
`"string"` does not set the additional-properties policy — it is stored as
a named property `"*"`, marked required, and the policy stays the
forbidding `FalseSchema`. -/
theorem c1_counterexample :
    ∃ s, ToJSONSchema (.map [("*".data, .str "string".data)]) = (some s, none) ∧
      schemaPropKeys s = ["*".data] ∧ s.base.required = ["*".data] ∧
      s.additionalProperties = some falseSchema ∧
      falseSchema ≠ .mk { type := "string".data } none none none :=
  ⟨_, rfl, rfl, rfl, rfl,
    fun h => Bool.noConfusion (congrArg (fun s => s.base.boolFalse) h)⟩

/-- C1, amended: it is the entry whose key carries the parenthetical
modifier `*` — authored with an empty property name as `"(*)"` — whose
child node `C` becomes the object's additional-properties policy, storing
no named property; processing then continues with the remaining
entries. -/
theorem c1_amended (v : PValue) (C : Schema) (rest : List (Str × PValue))
    (h : parsePico v = .ok C) :
    parsePico (.map [("(*)".data, v)]) =
      .ok (.mk { type := "object".data } (some []) none (some C)) ∧
    parsePico (.map (("(*)".data, v) :: rest)) =
      parseEntries rest (.mk { type := "object".data } (some []) none (some C)) := by
  have key : ∀ rest' : List (Str × PValue),
      parsePico (.map (("(*)".data, v) :: rest')) =
        parseEntries rest' (.mk { type := "object".data } (some []) none (some C)) := by
    intro rest'
    show parseEntries (("(*)".data, v) :: rest') _ = _
    simp only [parseEntries]
    rw [h]
    rfl
  exact ⟨(key []).trans rfl, key rest⟩

/-- C1, witness for the amended theorem: `{"(*)": "string"}` sets the
policy to the string schema and stores no property. -/
theorem c1_witness :
    parsePico (.map [("(*)".data, .str "string".data)]) =
      .ok (.mk { type := "object".data } (some [])
        none (some (.mk { type := "string".data } none none none))) :=
  (c1_amended (.str "string".data) _ [] rfl).1

/-! ## C3 (counterexample part) -/

/-- C3, failing input: on `{"name(*)": "string"}` translation succeeds
with an object node whose `Required` is `["name"]` while `Properties` is
empty — `Required` is not a subset of the `Properties` keys (the entry's
name is appended to `Required` before the `*` modifier redirects the
child into the additional-properties policy and skips the store). -/
theorem c3_counterexample :
    ∃ s, ToJSONSchema (.map [("name(*)".data, .str "string".data)]) =
        (some s, none) ∧
      s.base.type = "object".data ∧ s.base.required = ["name".data] ∧
      schemaPropKeys s = [] ∧ reqSubset s = false :=
  ⟨_, rfl, rfl, rfl, rfl, rfl⟩

/-! ## C10 -/

/-- C10: the top-level translation returns exactly one of a schema or an
error on every non-null input — the schema is present iff the error is
absent — and only the null input yields neither. -/
theorem c10_schema_xor_error :
    (∀ v : PValue, v ≠ .null →
      ((ToJSONSchema v).1.isSome = true ↔ (ToJSONSchema v).2 = none)) ∧
    ToJSONSchema .null = (none, none) := by
  constructor
  · intro v hv
    cases v with
    | null => exact absurd rfl hv
    | map es =>
      simp only [ToJSONSchema]
      by_cases h7 : isSevenType (lookupV "type".data es) = true
      · simp only [h7, if_true]
        exact pairOfExcept_iff _
      · simp only [h7, if_false, Bool.false_eq_true]
        rcases hp : lookupV "properties".data es with _ | p
        · exact pairOfExcept_iff _
        · cases p with
          | map ps =>
            rcases hm : mapToJSONSchema es with e | s <;> simp
          | null => exact pairOfExcept_iff _
          | bool b => exact pairOfExcept_iff _
          | int n => exact pairOfExcept_iff _
          | uint n => exact pairOfExcept_iff _
          | float q => exact pairOfExcept_iff _
          | str s => exact pairOfExcept_iff _
          | list xs => exact pairOfExcept_iff _
    | bool b => exact pairOfExcept_iff _
    | int n => exact pairOfExcept_iff _
    | uint n => exact pairOfExcept_iff _
    | float q => exact pairOfExcept_iff _
    | str s => exact pairOfExcept_iff _
    | list xs => exact pairOfExcept_iff _
  · rfl

/-- C10, witness at the non-null input `"string"`. -/
theorem c10_witness :
    (ToJSONSchema (.str "string".data)).1.isSome = true ↔
      (ToJSONSchema (.str "string".data)).2 = none :=
  c10_schema_xor_error.1 _ nofun

/-! ## C6 -/

/-- C6: each of the five scalar tokens translates to a node with that type
tag and no description; with a `, desc` suffix, the same type tag plus the
whitespace-trimmed description; `"any"` yields the empty type tag; and any
string whose segment before the first comma is outside the six recognized
tokens is an "unsupported scalar type" error naming that segment. -/
theorem c6_scalar_tokens :
    (∀ t : Str,
      t = "string".data ∨ t = "boolean".data ∨ t = "null".data ∨
        t = "number".data ∨ t = "integer".data →
      parsePico (.str t) = .ok (.mk { type := t } none none none) ∧
      ∀ d : Str, parsePico (.str (t ++ ',' :: d)) =
        .ok (.mk { type := t, description := trimSpace d } none none none)) ∧
    parsePico (.str "any".data) = .ok (.mk {} none none none) ∧
    (∀ s : Str,
      (cut ',' s).before ≠ "string".data → (cut ',' s).before ≠ "boolean".data →
      (cut ',' s).before ≠ "null".data → (cut ',' s).before ≠ "number".data →
      (cut ',' s).before ≠ "integer".data → (cut ',' s).before ≠ "any".data →
      parsePico (.str s) = .error (.unsupportedScalarType (cut ',' s).before)) := by
  refine ⟨?_, rfl, ?_⟩
  · intro t hmem
    rcases hmem with h | h | h | h | h <;> subst h <;>
      refine ⟨rfl, fun d => ?_⟩ <;>
      · simp only [parsePico]
        rw [cut_append (by decide) d]
        simp [trimSpace]
  · intro s h1 h2 h3 h4 h5 h6
    simp only [parsePico]
    rcases hc : cut ',' s with ⟨b, a, f⟩
    rw [hc] at h1 h2 h3 h4 h5 h6
    simp [h1, h2, h3, h4, h5, h6]

/-- C6, witness: the token `integer`, with and without a description, and
the unsupported token `foo`. -/
theorem c6_witness :
    parsePico (.str "integer".data) =
      .ok (.mk { type := "integer".data } none none none) ∧
    parsePico (.str "integer, the count".data) =
      .ok (.mk { type := "integer".data, description := "the count".data }
        none none none) ∧
    parsePico (.str "foo, x".data) =
      .error (.unsupportedScalarType "foo".data) :=
  ⟨(c6_scalar_tokens.1 "integer".data (by simp)).1,
   (c6_scalar_tokens.1 "integer".data (by simp)).2 " the count".data,
   c6_scalar_tokens.2.2 "foo, x".data (by decide) (by decide) (by decide)
     (by decide) (by decide) (by decide)⟩

/-! ## C5 -/

/-- C5: for an entry whose key carries the parenthetical modifier `enum`:
if the child node parsed from the value has no `Enum`, translation fails
with the "enum value is not an array" error; and for an optional
`enum`-modified property (`name?(enum)`) whose value is a sequence, the
null sentinel is appended to the enum and the property is excluded from
`Required` (stated both with processing continuing over the remaining
entries and for the single-entry mapping). -/
theorem c5_enum_modifier :
    (∀ (nm : Str) (v : PValue) (C : Schema) (rest : List (Str × PValue)),
      '(' ∉ nm → parsePico v = .ok C → C.base.enum = none →
      parsePico (.map ((nm ++ "(enum)".data, v) :: rest)) =
        .error (.enumNotArray C)) ∧
    (∀ (nm : Str) (xs : List PValue) (rest : List (Str × PValue)), '(' ∉ nm →
      parsePico (.map ((nm ++ "?(enum)".data, .list xs) :: rest)) =
        parseEntries rest (.mk { type := "object".data }
          (some [(nm, .mk { enum := some (xs ++ [.null]) } none none none)])
          none (some falseSchema))) ∧
    (∀ (nm : Str) (xs : List PValue), '(' ∉ nm →
      parsePico (.map [(nm ++ "?(enum)".data, .list xs)]) =
        .ok (.mk { type := "object".data }
          (some [(nm, .mk { enum := some (xs ++ [.null]) } none none none)])
          none (some falseSchema))) := by
  have hmod : cut ',' (trimSuffix1 ')' (trimSuffix1 ')' "enum)".data)) =
      ⟨"enum".data, [], false⟩ := rfl
  have hb : ∀ (nm : Str) (xs : List PValue) (rest : List (Str × PValue)),
      '(' ∉ nm →
      parsePico (.map ((nm ++ "?(enum)".data, .list xs) :: rest)) =
        parseEntries rest (.mk { type := "object".data }
          (some [(nm, .mk { enum := some (xs ++ [.null]) } none none none)])
          none (some falseSchema)) := by
    intro nm xs rest hnm
    have hnm2 : '(' ∉ nm ++ ['?'] := by
      intro h
      rcases List.mem_append.mp h with h | h
      · exact hnm h
      · simp at h
    have hassoc : nm ++ "?(enum)".data = (nm ++ ['?']) ++ ('(' :: "enum)".data) := by
      rw [List.append_assoc]
      rfl
    show parseEntries ((nm ++ "?(enum)".data, .list xs) :: rest) _ = _
    simp only [parseEntries]
    rw [show cut '(' (nm ++ "?(enum)".data) = ⟨nm ++ ['?'], "enum)".data, true⟩ from by
      rw [hassoc]
      exact cut_append hnm2 _]
    rw [cutSuffix1_append '?' nm]
    simp [hmod, setPropIn, omSet, withBase, Schema.base, Schema.properties,
      show parsePico (.list xs) = .ok (.mk { enum := some xs } none none none) from rfl]
  refine ⟨?_, hb, fun nm xs hnm => (hb nm xs [] hnm).trans rfl⟩
  · intro nm v C rest hnm hv he
    show parseEntries ((nm ++ "(enum)".data, v) :: rest) _ = _
    simp only [parseEntries]
    rw [cut_append hnm "enum)".data]
    rcases hcs : cutSuffix1 '?' nm with ⟨pn, opt⟩
    simp [hv, he, hmod]

/-- C5, witness: `{"color(enum)": "string"}` fails with the enum error,
and `{"color?(enum)": ["red","green"]}` appends the null sentinel and
leaves `Required` empty. -/
theorem c5_witness :
    parsePico (.map [("color(enum)".data, .str "string".data)]) =
      .error (.enumNotArray (.mk { type := "string".data } none none none)) ∧
    parsePico (.map [("color?(enum)".data,
        .list [.str "red".data, .str "green".data])]) =
      .ok (.mk { type := "object".data }
        (some [("color".data,
          .mk { enum := some [.str "red".data, .str "green".data, .null] }
            none none none)])
        none (some falseSchema)) :=
  ⟨c5_enum_modifier.1 "color".data (.str "string".data) _ [] (by decide) rfl rfl,
   c5_enum_modifier.2.2 "color".data [.str "red".data, .str "green".data] (by decide)⟩

/-! ## C7 -/

/-- C7: a top-level mapping whose `type` is not one of the seven
recognized JSON-Schema type names but whose `properties` key is bound to a
mapping is converted by the structural mapper, and on success the node's
type tag is forced to `object`. -/
theorem c7_properties_routing (l : List (Str × PValue))
    (h7 : isSevenType (lookupV "type".data l) = false)
    (hp : ∃ ps, lookupV "properties".data l = some (.map ps)) :
    (∀ e, mapToJSONSchema l = .error e → ToJSONSchema (.map l) = (none, some e)) ∧
    (∀ s, mapToJSONSchema l = .ok s →
      ToJSONSchema (.map l) = (some (setType s "object".data), none) ∧
      (setType s "object".data).base.type = "object".data) := by
  obtain ⟨ps, hps⟩ := hp
  constructor
  · intro e he
    simp only [ToJSONSchema, h7, Bool.false_eq_true, if_false, hps, mapToJSONSchema]
    rw [show mapToJSONSchema l = mapFields l emptySchema from rfl] at he
    rw [he]
  · intro s hs
    refine ⟨?_, by simp [setType]⟩
    simp only [ToJSONSchema, h7, Bool.false_eq_true, if_false, hps, mapToJSONSchema]
    rw [show mapToJSONSchema l = mapFields l emptySchema from rfl] at hs
    rw [hs]

/-- C7, witness: a mapping with a `properties` key and no `type` key is
structurally mapped and comes back with type `object`. -/
theorem c7_witness :
    ToJSONSchema (.map [("properties".data,
        .map [("a".data, .map [("type".data, .str "string".data)])])]) =
      (some (.mk { type := "object".data }
        (some [("a".data, .mk { type := "string".data } none none none)])
        none none), none) :=
  ((c7_properties_routing
      [("properties".data, .map [("a".data, .map [("type".data, .str "string".data)])])]
      rfl ⟨_, rfl⟩).2 _ rfl).1

/-! ## C2 -/

@[simp] theorem schemaPropKeys_withBase (s : Schema) (b : SBase) :
    schemaPropKeys (withBase s b) = schemaPropKeys s := by
  cases s; rfl

@[simp] theorem schemaPropKeys_setAddProps (s : Schema) (a : Option Schema) :
    schemaPropKeys (setAddProps s a) = schemaPropKeys s := by
  cases s; rfl

theorem schemaPropKeys_setPropIn (s : Schema) (k : Str) (p : Schema) :
    schemaPropKeys (setPropIn s k p) =
      if k ∈ schemaPropKeys s then schemaPropKeys s
      else schemaPropKeys s ++ [k] := by
  cases s with
  | mk b props i a =>
    cases props with
    | none =>
      show ([(k, p)].map Prod.fst) = _
      simp [schemaPropKeys, propKeysOf, Schema.properties]
    | some l =>
      show (omSet k p l).map Prod.fst = _
      rw [map_fst_omSet]
      rfl

/-- The successful entry loop realizes, for every enumeration of the
mapping's entries, exactly the ordered-map key discipline: the final
`Properties` keys extend the accumulator's keys by the first occurrence
of each stored property name in enumeration order, and `Required` extends
the accumulator's list by the non-optional names in enumeration order. -/
theorem parseEntries_keys : ∀ (l : List (Str × PValue)) (acc s : Schema),
    parseEntries l acc = .ok s →
    schemaPropKeys s = addNew (schemaPropKeys acc) (nonWildNames l) ∧
    s.base.required = acc.base.required ++ reqNames l := by
  intro l
  induction l with
  | nil =>
    intro acc s h
    simp only [parseEntries, Except.ok.injEq] at h
    subst h
    simp [addNew, nonWildNames, reqNames]
  | cons e rest ih =>
    obtain ⟨k, v⟩ := e
    intro acc s h
    simp only [parseEntries] at h
    rcases hc : cut '(' k with ⟨name, typ0, fp⟩
    rw [hc] at h
    rcases hcs : cutSuffix1 '?' name with ⟨pn, opt⟩
    rw [hcs] at h
    have hen : entryName k = name := by simp [entryName, hc]
    have hpn : entryPropName k = pn := by simp [entryPropName, entryName, hc, hcs]
    have hopt : entryOptional k = opt := by simp [entryOptional, entryName, hc, hcs]
    rcases hv : parsePico v with e' | property
    · rw [hv] at h
      simp at h
    rw [hv] at h
    simp only [] at h
    -- the required-list update made before the modifier dispatch
    set acc1 := if name ≠ [] ∧ opt = false then
        withBase acc { acc.base with required := acc.base.required ++ [pn] }
      else acc with hacc1
    have hacc1keys : schemaPropKeys acc1 = schemaPropKeys acc := by
      rw [hacc1]
      split <;> simp
    have hacc1req : acc1.base.required =
        acc.base.required ++ (if entryName k ≠ [] ∧ entryOptional k = false
          then [pn] else []) := by
      rw [hacc1, hen, hopt]
      split <;> simp
    have hreqcons : reqNames ((k, v) :: rest) =
        (if entryName k ≠ [] ∧ entryOptional k = false then [pn] else []) ++
          reqNames rest := by
      simp only [reqNames]
      split <;> simp_all
    -- a step that stores a property under its name
    have store : ∀ (P : Schema), isWildcardKey k = false →
        parseEntries rest (setPropIn acc1 pn P) = .ok s →
        schemaPropKeys s = addNew (schemaPropKeys acc) (nonWildNames ((k, v) :: rest)) ∧
        s.base.required = acc.base.required ++ reqNames ((k, v) :: rest) := by
      intro P hwild hrec
      obtain ⟨ihk, ihr⟩ := ih (setPropIn acc1 pn P) s hrec
      constructor
      · rw [ihk, schemaPropKeys_setPropIn, hacc1keys]
        simp only [nonWildNames, hwild, Bool.false_eq_true, if_false, hpn]
        rw [addNew]
      · rw [ihr, hreqcons]
        have : (setPropIn acc1 pn P).base.required = acc1.base.required := by
          simp
        rw [this, hacc1req, List.append_assoc]
    -- a step that sets the additional-properties policy
    have wild : isWildcardKey k = true →
        parseEntries rest (setAddProps acc1 (some property)) = .ok s →
        schemaPropKeys s = addNew (schemaPropKeys acc) (nonWildNames ((k, v) :: rest)) ∧
        s.base.required = acc.base.required ++ reqNames ((k, v) :: rest) := by
      intro hwild hrec
      obtain ⟨ihk, ihr⟩ := ih (setAddProps acc1 (some property)) s hrec
      constructor
      · rw [ihk, schemaPropKeys_setAddProps, hacc1keys]
        simp only [nonWildNames, hwild, if_true]
      · rw [ihr, hreqcons]
        have : (setAddProps acc1 (some property)).base.required = acc1.base.required := by
          simp
        rw [this, hacc1req, List.append_assoc]
    cases fp with
    | false =>
      have hwild : isWildcardKey k = false := by
        simp [isWildcardKey, hc]
      simp only [Bool.false_eq_true, not_false_eq_true, if_pos rfl] at h
      exact store property hwild h
    | true =>
      rcases hm : cut ',' (trimSuffix1 ')' (trimSuffix1 ')' typ0)) with ⟨typ, desc, fdc⟩
      rw [hm] at h
      simp only [Bool.true_eq_false, if_false] at h
      by_cases harr : typ = "array".data
      · rw [if_pos harr] at h
        have hwild : isWildcardKey k = false := by
          simp [isWildcardKey, hc, hm, harr]
        exact store _ hwild h
      · rw [if_neg harr] at h
        by_cases hobj : typ = "object".data
        · rw [if_pos hobj] at h
          have hwild : isWildcardKey k = false := by
            simp [isWildcardKey, hc, hm, hobj]
          exact store _ hwild h
        · rw [if_neg hobj] at h
          by_cases henm : typ = "enum".data
          · rw [if_pos henm] at h
            rcases hpe : property.base.enum with _ | xs
            · rw [hpe] at h
              simp at h
            · rw [hpe] at h
              simp only [] at h
              have hwild : isWildcardKey k = false := by
                simp [isWildcardKey, hc, hm, henm]
              exact store _ hwild h
          · rw [if_neg henm] at h
            by_cases hstar : typ = "*".data
            · rw [if_pos hstar] at h
              have hwild : isWildcardKey k = true := by
                simp [isWildcardKey, hc, hm, hstar]
              exact wild hwild h
            · rw [if_neg hstar] at h
              simp at h

/-- C2, amended: for every enumeration order of a shorthand mapping's
entries on which parsing succeeds, `Properties` holds the first
occurrence of each stored property name in that enumeration order, and
`Required` lists the non-optional names in that enumeration order —
relative to the order Go's `range` presents, not to the authored order. -/
theorem c2_order (l : List (Str × PValue)) (s : Schema)
    (h : parsePico (.map l) = .ok s) :
    schemaPropKeys s = addNew [] (nonWildNames l) ∧
    s.base.required = reqNames l := by
  have := parseEntries_keys l
    (.mk { type := "object".data } (some []) none (some falseSchema)) s h
  simpa [schemaPropKeys, propKeysOf, Schema.properties, Schema.base] using this

/-- C2, witness for the amended theorem, at the authored enumeration of
the mapping of the spec's example: `Properties` in order `[name, age]`
and `Required == ["name"]`. -/
theorem c2_witness :
    schemaPropKeys (.mk { type := "object".data, required := ["name".data] }
        (some [("name".data, .mk { type := "string".data } none none none),
               ("age".data, .mk { type := "integer".data } none none none)])
        none (some falseSchema)) = ["name".data, "age".data] ∧
    (Schema.mk { type := "object".data, required := ["name".data] }
        (some [("name".data, .mk { type := "string".data } none none none),
               ("age".data, .mk { type := "integer".data } none none none)])
        none (some falseSchema)).base.required = ["name".data] := by
  obtain ⟨hk, hr⟩ := c2_order
    [("name".data, .str "string".data), ("age?".data, .str "integer".data)] _ rfl
  exact ⟨hk.trans (by decide), hr.trans (by decide)⟩

/-- C2, counterexample: the claim as stated — `Properties` in the
*authored* key order — fails on the code: for the authored mapping
`{"name": "string", "age?": "integer"}`, Go's `range` may enumerate the
entries in the reversed order (a permutation of the authored entries),
and then the resulting object's `Properties` keys are `[age, name]`, not
the authored `[name, age]` (while `Required` is still `["name"]`). -/
theorem c2_counterexample :
    (([(("age?".data : Str), PValue.str "integer".data),
       (("name".data : Str), PValue.str "string".data)] :
        List (Str × PValue)).Perm
      [(("name".data : Str), PValue.str "string".data),
       (("age?".data : Str), PValue.str "integer".data)]) ∧
    (∃ s, parsePico (.map [("age?".data, .str "integer".data),
        ("name".data, .str "string".data)]) = .ok s ∧
      schemaPropKeys s = ["age".data, "name".data] ∧
      s.base.required = ["name".data]) ∧
    (["age".data, "name".data] : List Str) ≠ ["name".data, "age".data] := by
  refine ⟨List.Perm.swap _ _ _, ⟨_, rfl, rfl, rfl⟩, by decide⟩

/-! ## C3 (amended theorem) -/

theorem getD_keys (p : Option (List (Str × Schema))) :
    (p.getD []).map Prod.fst = propKeysOf p := by
  cases p <;> rfl

theorem mem_keys_omSet_of_mem {α : Type} {r k : Str} {p : α}
    {l : List (Str × α)} (h : r ∈ l.map Prod.fst) :
    r ∈ (omSet k p l).map Prod.fst := by
  rw [map_fst_omSet]
  split
  · exact h
  · exact List.mem_append_left _ h

theorem self_mem_keys_omSet {α : Type} (k : Str) (p : α) (l : List (Str × α)) :
    k ∈ (omSet k p l).map Prod.fst := by
  rw [map_fst_omSet]
  split
  · assumption
  · exact List.mem_append_right _ (List.mem_singleton.mpr rfl)

theorem reqSubsetL_omSet (k : Str) (P : Schema) (l : List (Str × Schema))
    (hl : reqSubsetL l = true) (hP : reqSubset P = true) :
    reqSubsetL (omSet k P l) = true := by
  induction l with
  | nil =>
    rw [show omSet k P ([] : List (Str × Schema)) = [(k, P)] from rfl]
    simp [reqSubsetL, hP]
  | cons e rest ih =>
    obtain ⟨k', s'⟩ := e
    rw [show omSet k P ((k', s') :: rest) =
      if k' = k then (k, P) :: rest else (k', s') :: omSet k P rest from rfl]
    simp only [reqSubsetL, Bool.and_eq_true] at hl
    split
    · simp [reqSubsetL, hP, hl.2]
    · simp [reqSubsetL, hl.1, ih hl.2]

theorem reqSubsetP_getD (p : Option (List (Str × Schema)))
    (h : reqSubsetP p = true) : reqSubsetL (p.getD []) = true := by
  cases p with
  | none => rfl
  | some l => exact h

/-- A successful store step preserves the `Required ⊆ Properties`
invariant: appending the stored name to `Required` (or not) and then
inserting the property under that same name keeps every required name
among the keys. -/
theorem reqSubset_store_step (acc : Schema) (pn : Str) (P : Schema)
    (cond : Prop) [Decidable cond]
    (hacc : reqSubset acc = true) (hP : reqSubset P = true) :
    reqSubset (setPropIn
      (if cond then
        withBase acc { acc.base with required := acc.base.required ++ [pn] }
       else acc) pn P) = true := by
  have core : ∀ (b : SBase) (p : Option (List (Str × Schema)))
      (i a : Option Schema) (extra : List Str),
      reqSubset (.mk b p i a) = true → (∀ r ∈ extra, r = pn) →
      reqSubset (.mk { b with required := b.required ++ extra }
        (some (omSet pn P (p.getD []))) i a) = true := by
    intro b p i a extra hmk hextra
    rw [show reqSubset (.mk b p i a) =
      ((if b.type = "object".data then
          b.required.all (fun r => decide (r ∈ propKeysOf p))
        else true) &&
        reqSubsetP p && reqSubsetO i && reqSubsetO a) from rfl] at hmk
    rw [show reqSubset (.mk { b with required := b.required ++ extra }
        (some (omSet pn P (p.getD []))) i a) =
      ((if b.type = "object".data then
          (b.required ++ extra).all
            (fun r => decide (r ∈ propKeysOf (some (omSet pn P (p.getD [])))))
        else true) &&
        reqSubsetP (some (omSet pn P (p.getD []))) && reqSubsetO i &&
          reqSubsetO a) from rfl]
    simp only [Bool.and_eq_true] at hmk ⊢
    obtain ⟨⟨⟨hguard, hprops⟩, hitems⟩, haddl⟩ := hmk
    refine ⟨⟨⟨?_, ?_⟩, hitems⟩, haddl⟩
    rotate_left
    · exact reqSubsetL_omSet pn P _ (reqSubsetP_getD p hprops) hP
    · split
      · rw [List.all_append, Bool.and_eq_true]
        constructor
        · rw [List.all_eq_true]
          intro r hr
          have hr2 : r ∈ propKeysOf p := by
            rw [if_pos (by assumption)] at hguard
            rw [List.all_eq_true] at hguard
            simpa using hguard r hr
          simp only [propKeysOf, decide_eq_true_eq]
          rw [← getD_keys] at hr2
          exact mem_keys_omSet_of_mem hr2
        · rw [List.all_eq_true]
          intro r hr
          have : r = pn := hextra r hr
          subst this
          simp only [propKeysOf, decide_eq_true_eq]
          exact self_mem_keys_omSet r P _
      · rfl
  by_cases hc : cond
  · rw [if_pos hc]
    cases acc with
    | mk b p i a =>
      have := core b p i a [pn] hacc (by simp)
      simpa [setPropIn, withBase, Schema.base, Schema.properties] using this
  · rw [if_neg hc]
    cases acc with
    | mk b p i a =>
      have := core b p i a [] hacc (by simp)
      simpa [setPropIn, Schema.base, Schema.properties] using this

/-- Setting the additional-properties policy to an invariant-satisfying
child preserves the invariant. -/
theorem reqSubset_setAddProps_step (acc P : Schema)
    (hacc : reqSubset acc = true) (hP : reqSubset P = true) :
    reqSubset (setAddProps acc (some P)) = true := by
  cases acc with
  | mk b p i a =>
    rw [show setAddProps (.mk b p i a) (some P) = .mk b p i (some P) from rfl]
    rw [show reqSubset (Schema.mk b p i (some P)) =
      ((if b.type = "object".data then
          b.required.all (fun r => decide (r ∈ propKeysOf p))
        else true) &&
        reqSubsetP p && reqSubsetO i && reqSubset P) from rfl]
    rw [show reqSubset (.mk b p i a) =
      ((if b.type = "object".data then
          b.required.all (fun r => decide (r ∈ propKeysOf p))
        else true) &&
        reqSubsetP p && reqSubsetO i && reqSubsetO a) from rfl] at hacc
    simp only [Bool.and_eq_true] at hacc ⊢
    exact ⟨hacc.1, hP⟩

/-- Setting the description leaves the invariant unchanged. -/
theorem reqSubset_withBase_desc (s : Schema) (d : Str) :
    reqSubset (withBase s { s.base with description := d }) = reqSubset s := by
  cases s; rfl

/-- Replacing the enum leaves the invariant unchanged. -/
theorem reqSubset_withBase_enum (s : Schema) (e : Option (List PValue)) :
    reqSubset (withBase s { s.base with enum := e }) = reqSubset s := by
  cases s; rfl

/-- Wrapping a child as an array node preserves the invariant. -/
theorem reqSubset_arrayWrap (p : Schema) (h : reqSubset p = true) :
    reqSubset (.mk { type := "array".data } none (some p) none) = true := by
  simp [reqSubset, reqSubsetP, reqSubsetO, h]

mutual

/-- Invariant `Required ⊆ Properties` for shorthand results: every node produced by
a successful `parsePico` run on a value whose `*`-modified entries all
have empty or optional names satisfies the invariant throughout the
tree. -/
theorem parsePico_reqSubset : ∀ (v : PValue) (s : Schema),
    wfWild v = true → parsePico v = .ok s → reqSubset s = true
  | .str val, s, _, h => by
    simp only [parsePico] at h
    rcases hcut : cut ',' val with ⟨typ, desc, fnd⟩
    rw [hcut] at h
    split at h
    · rw [Except.ok.injEq] at h
      subst h
      simp [reqSubset, reqSubsetP, reqSubsetO]
    · simp at h
  | .list val, s, _, h => by
    simp only [parsePico, Except.ok.injEq] at h
    subst h
    rfl
  | .map val, s, hw, h =>
    parseEntries_reqSubset val
      (.mk { type := "object".data } (some []) none (some falseSchema)) s
      (by simpa [wfWild] using hw) rfl h
  | .null, s, _, h => by simp [parsePico] at h
  | .bool b, s, _, h => by simp [parsePico] at h
  | .int n, s, _, h => by simp [parsePico] at h
  | .uint n, s, _, h => by simp [parsePico] at h
  | .float q, s, _, h => by simp [parsePico] at h

/-- The entry loop preserves the `Required ⊆ Properties` invariant of the
accumulator, provided every `*`-modified entry has an empty or optional
name. -/
theorem parseEntries_reqSubset : ∀ (l : List (Str × PValue)) (acc s : Schema),
    wfWildE l = true → reqSubset acc = true →
    parseEntries l acc = .ok s → reqSubset s = true
  | [], acc, s, _, hacc, h => by
    simp only [parseEntries, Except.ok.injEq] at h
    subst h
    exact hacc
  | (k, v) :: rest, acc, s, hw, hacc, h => by
    have hw3 : (wildOK k = true ∧ wfWild v = true) ∧ wfWildE rest = true := by
      simpa [wfWildE, Bool.and_eq_true] using hw
    simp only [parseEntries] at h
    rcases hc : cut '(' k with ⟨name, typ0, fp⟩
    rw [hc] at h
    rcases hcs : cutSuffix1 '?' name with ⟨pn, opt⟩
    rw [hcs] at h
    rcases hv : parsePico v with e' | property
    · rw [hv] at h
      simp at h
    rw [hv] at h
    simp only [] at h
    have hP : reqSubset property = true :=
      parsePico_reqSubset v property hw3.1.2 hv
    cases fp with
    | false =>
      simp only [Bool.false_eq_true, not_false_eq_true, if_pos rfl] at h
      exact parseEntries_reqSubset rest _ s hw3.2
        (reqSubset_store_step acc pn property _ hacc hP) h
    | true =>
      rcases hm : cut ',' (trimSuffix1 ')' (trimSuffix1 ')' typ0)) with ⟨typ, desc, fdc⟩
      rw [hm] at h
      simp only [Bool.true_eq_false, if_false] at h
      by_cases harr : typ = "array".data
      · rw [if_pos harr] at h
        have hPd : reqSubset (if fdc = true then
            withBase (Schema.mk { type := "array".data } none (some property) none)
              { (Schema.mk { type := "array".data } none (some property) none).base
                with description := trimSpace desc }
          else Schema.mk { type := "array".data } none (some property) none) = true := by
          split
          · rw [reqSubset_withBase_desc]
            exact reqSubset_arrayWrap property hP
          · exact reqSubset_arrayWrap property hP
        exact parseEntries_reqSubset rest _ s hw3.2
          (reqSubset_store_step acc pn _ _ hacc hPd) h
      · rw [if_neg harr] at h
        by_cases hobj : typ = "object".data
        · rw [if_pos hobj] at h
          have hPd : reqSubset (if fdc = true then
              withBase property { property.base with description := trimSpace desc }
            else property) = true := by
            split
            · rw [reqSubset_withBase_desc]
              exact hP
            · exact hP
          exact parseEntries_reqSubset rest _ s hw3.2
            (reqSubset_store_step acc pn _ _ hacc hPd) h
        · rw [if_neg hobj] at h
          by_cases henm : typ = "enum".data
          · rw [if_pos henm] at h
            rcases hpe : property.base.enum with _ | xs
            · rw [hpe] at h
              simp at h
            · rw [hpe] at h
              simp only [] at h
              have hP1 : reqSubset (if opt = true then
                  withBase property { property.base with enum := some (xs ++ [.null]) }
                else property) = true := by
                split
                · rw [reqSubset_withBase_enum]
                  exact hP
                · exact hP
              have hPd : reqSubset (if fdc = true then
                  withBase (if opt = true then
                    withBase property { property.base with enum := some (xs ++ [.null]) }
                  else property)
                    { (if opt = true then
                        withBase property { property.base with enum := some (xs ++ [.null]) }
                      else property).base with description := trimSpace desc }
                else (if opt = true then
                  withBase property { property.base with enum := some (xs ++ [.null]) }
                else property)) = true := by
                split
                · rw [reqSubset_withBase_desc]
                  exact hP1
                · exact hP1
              exact parseEntries_reqSubset rest _ s hw3.2
                (reqSubset_store_step acc pn _ _ hacc hPd) h
          · rw [if_neg henm] at h
            by_cases hstar : typ = "*".data
            · rw [if_pos hstar] at h
              have hen : entryName k = name := by simp [entryName, hc]
              have hopt : entryOptional k = opt := by
                simp [entryOptional, entryName, hc, hcs]
              have hiswild : isWildcardKey k = true := by
                simp [isWildcardKey, hc, hm, hstar]
              have hncond : ¬(name ≠ [] ∧ opt = false) := by
                have hwk := hw3.1.1
                rw [show wildOK k = (!(isWildcardKey k) ||
                  (decide (entryName k = []) || entryOptional k)) from rfl,
                  hiswild, hen, hopt] at hwk
                simp only [Bool.not_true, Bool.false_or, Bool.or_eq_true,
                  decide_eq_true_eq] at hwk
                rcases hwk with hwk | hwk
                · intro hcon
                  exact hcon.1 hwk
                · intro hcon
                  rw [hcon.2] at hwk
                  cases hwk
              rw [if_neg hncond] at h
              exact parseEntries_reqSubset rest _ s hw3.2
                (reqSubset_setAddProps_step acc property hacc hP) h
            · rw [if_neg hstar] at h
              simp at h

end

/-- C3, amended: for every input on which the shorthand parser succeeds
and whose `*`-modified entries all have empty or optional names (the
idiomatic authoring, e.g. `"(*)"`), every object node in the result has a
`Required` list contained in its `Properties` keys; the structural mapper
is excluded, since it copies a caller-supplied `required` list verbatim.
-/
theorem c3_amended (v : PValue) (s : Schema) (hw : wfWild v = true)
    (h : parsePico v = .ok s) : reqSubset s = true :=
  parsePico_reqSubset v s hw h

/-- C3, witness for the amended theorem on
`{"name": "string", "(*)": "integer"}`. -/
theorem c3_witness :
    reqSubset (.mk { type := "object".data, required := ["name".data] }
      (some [("name".data, .mk { type := "string".data } none none none)])
      none (some (.mk { type := "integer".data } none none none))) = true :=
  c3_amended (.map [("name".data, .str "string".data),
    ("(*)".data, .str "integer".data)]) _ rfl rfl

/-! ## C8 -/

theorem enumsNonemptyL_omSet (k : Str) (P : Schema) (l : List (Str × Schema))
    (hl : enumsNonemptyL l = true) (hP : enumsNonempty P = true) :
    enumsNonemptyL (omSet k P l) = true := by
  induction l with
  | nil =>
    rw [show omSet k P ([] : List (Str × Schema)) = [(k, P)] from rfl]
    simp [enumsNonemptyL, hP]
  | cons e rest ih =>
    obtain ⟨k', s'⟩ := e
    rw [show omSet k P ((k', s') :: rest) =
      if k' = k then (k, P) :: rest else (k', s') :: omSet k P rest from rfl]
    simp only [enumsNonemptyL, Bool.and_eq_true] at hl
    split
    · simp [enumsNonemptyL, hP, hl.2]
    · simp [enumsNonemptyL, hl.1, ih hl.2]

theorem enumsNonemptyP_getD (p : Option (List (Str × Schema)))
    (h : enumsNonemptyP p = true) : enumsNonemptyL (p.getD []) = true := by
  cases p with
  | none => rfl
  | some l => exact h

/-- Replacing the non-recursive fields without touching the enum keeps
the enum invariant. -/
theorem enums_withBase (s : Schema) (b : SBase) (hb : b.enum = s.base.enum)
    (h : enumsNonempty s = true) : enumsNonempty (withBase s b) = true := by
  cases s with
  | mk b0 p i a =>
    rw [show (Schema.mk b0 p i a).base = b0 from rfl] at hb
    rw [show withBase (.mk b0 p i a) b = .mk b p i a from rfl]
    rw [show enumsNonempty (Schema.mk b p i a) =
      ((match b.enum with
        | none => true
        | some [] => false
        | some (_ :: _) => true) &&
        enumsNonemptyP p && enumsNonemptyO i && enumsNonemptyO a) from rfl]
    rw [show enumsNonempty (Schema.mk b0 p i a) =
      ((match b0.enum with
        | none => true
        | some [] => false
        | some (_ :: _) => true) &&
        enumsNonemptyP p && enumsNonemptyO i && enumsNonemptyO a) from rfl] at h
    rw [hb]
    exact h

/-- A store step (optional required-append, then `Properties.Set`)
preserves the enum invariant. -/
theorem enums_store_step (acc : Schema) (pn : Str) (P : Schema)
    (cond : Prop) [Decidable cond]
    (hacc : enumsNonempty acc = true) (hP : enumsNonempty P = true) :
    enumsNonempty (setPropIn
      (if cond then
        withBase acc { acc.base with required := acc.base.required ++ [pn] }
       else acc) pn P) = true := by
  have core : ∀ (b : SBase) (p : Option (List (Str × Schema)))
      (i a : Option Schema),
      enumsNonempty (.mk b p i a) = true →
      enumsNonempty (.mk b (some (omSet pn P (p.getD []))) i a) = true := by
    intro b p i a hmk
    rw [show enumsNonempty (Schema.mk b p i a) =
      ((match b.enum with
        | none => true
        | some [] => false
        | some (_ :: _) => true) &&
        enumsNonemptyP p && enumsNonemptyO i && enumsNonemptyO a) from rfl] at hmk
    rw [show enumsNonempty (Schema.mk b (some (omSet pn P (p.getD []))) i a) =
      ((match b.enum with
        | none => true
        | some [] => false
        | some (_ :: _) => true) &&
        enumsNonemptyL (omSet pn P (p.getD [])) &&
        enumsNonemptyO i && enumsNonemptyO a) from rfl]
    simp only [Bool.and_eq_true] at hmk ⊢
    exact ⟨⟨⟨hmk.1.1.1,
      enumsNonemptyL_omSet pn P _ (enumsNonemptyP_getD p hmk.1.1.2) hP⟩,
      hmk.1.2⟩, hmk.2⟩
  by_cases hc : cond
  · rw [if_pos hc]
    cases acc with
    | mk b p i a =>
      have hstep : enumsNonempty (.mk { b with required := b.required ++ [pn] } p i a) = true := by
        refine enums_withBase (.mk b p i a) _ rfl hacc
      have := core { b with required := b.required ++ [pn] } p i a hstep
      simpa [setPropIn, withBase, Schema.properties] using this
  · rw [if_neg hc]
    cases acc with
    | mk b p i a =>
      have := core b p i a hacc
      simpa [setPropIn, Schema.properties] using this

/-- Setting the additional-properties policy preserves the enum
invariant. -/
theorem enums_setAddProps_step (acc P : Schema)
    (hacc : enumsNonempty acc = true) (hP : enumsNonempty P = true) :
    enumsNonempty (setAddProps acc (some P)) = true := by
  cases acc with
  | mk b p i a =>
    rw [show setAddProps (.mk b p i a) (some P) = .mk b p i (some P) from rfl]
    rw [show enumsNonempty (Schema.mk b p i (some P)) =
      ((match b.enum with
        | none => true
        | some [] => false
        | some (_ :: _) => true) &&
        enumsNonemptyP p && enumsNonemptyO i && enumsNonempty P) from rfl]
    rw [show enumsNonempty (Schema.mk b p i a) =
      ((match b.enum with
        | none => true
        | some [] => false
        | some (_ :: _) => true) &&
        enumsNonemptyP p && enumsNonemptyO i && enumsNonemptyO a) from rfl] at hacc
    simp only [Bool.and_eq_true] at hacc ⊢
    exact ⟨hacc.1, hP⟩

/-- Setting the `Items` child preserves the enum invariant. -/
theorem enums_setItems_step (acc P : Schema)
    (hacc : enumsNonempty acc = true) (hP : enumsNonempty P = true) :
    enumsNonempty (setItems acc (some P)) = true := by
  cases acc with
  | mk b p i a =>
    rw [show setItems (.mk b p i a) (some P) = .mk b p (some P) a from rfl]
    rw [show enumsNonempty (Schema.mk b p (some P) a) =
      ((match b.enum with
        | none => true
        | some [] => false
        | some (_ :: _) => true) &&
        enumsNonemptyP p && enumsNonempty P && enumsNonemptyO a) from rfl]
    rw [show enumsNonempty (Schema.mk b p i a) =
      ((match b.enum with
        | none => true
        | some [] => false
        | some (_ :: _) => true) &&
        enumsNonemptyP p && enumsNonemptyO i && enumsNonemptyO a) from rfl] at hacc
    simp only [Bool.and_eq_true] at hacc ⊢
    exact ⟨⟨⟨hacc.1.1.1, hacc.1.1.2⟩, hP⟩, hacc.2⟩

/-- Replacing the `Properties` map wholesale preserves the enum
invariant when every new child satisfies it. -/
theorem enums_setProperties_step (acc : Schema) (om : List (Str × Schema))
    (hacc : enumsNonempty acc = true) (hom : enumsNonemptyL om = true) :
    enumsNonempty (setProperties acc (some om)) = true := by
  cases acc with
  | mk b p i a =>
    rw [show setProperties (.mk b p i a) (some om) = .mk b (some om) i a from rfl]
    rw [show enumsNonempty (Schema.mk b (some om) i a) =
      ((match b.enum with
        | none => true
        | some [] => false
        | some (_ :: _) => true) &&
        enumsNonemptyL om && enumsNonemptyO i && enumsNonemptyO a) from rfl]
    rw [show enumsNonempty (Schema.mk b p i a) =
      ((match b.enum with
        | none => true
        | some [] => false
        | some (_ :: _) => true) &&
        enumsNonemptyP p && enumsNonemptyO i && enumsNonemptyO a) from rfl] at hacc
    simp only [Bool.and_eq_true] at hacc ⊢
    exact ⟨⟨⟨hacc.1.1.1, hom⟩, hacc.1.2⟩, hacc.2⟩

/-- Wrapping a child as an array node preserves the enum invariant. -/
theorem enums_arrayWrap (P : Schema) (hP : enumsNonempty P = true) :
    enumsNonempty (.mk { type := "array".data } none (some P) none) = true := by
  rw [show enumsNonempty
      (Schema.mk { type := "array".data } none (some P) none) =
    (true && true && enumsNonempty P && true) from rfl]
  simp [hP]

/-- Appending the null sentinel to an enum keeps it non-empty and
preserves the invariant elsewhere. -/
theorem enums_enumAppend (s : Schema) (xs : List PValue)
    (hs : enumsNonempty s = true) :
    enumsNonempty (withBase s { s.base with enum := some (xs ++ [.null]) }) = true := by
  cases s with
  | mk b p i a =>
    rw [show withBase (.mk b p i a)
        { (Schema.mk b p i a).base with enum := some (xs ++ [.null]) } =
      .mk { b with enum := some (xs ++ [.null]) } p i a from rfl]
    rw [show enumsNonempty (Schema.mk { b with enum := some (xs ++ [.null]) } p i a) =
      ((match some (xs ++ [PValue.null]) with
        | none => true
        | some [] => false
        | some (_ :: _) => true) &&
        enumsNonemptyP p && enumsNonemptyO i && enumsNonemptyO a) from rfl]
    rw [show enumsNonempty (Schema.mk b p i a) =
      ((match b.enum with
        | none => true
        | some [] => false
        | some (_ :: _) => true) &&
        enumsNonemptyP p && enumsNonemptyO i && enumsNonemptyO a) from rfl] at hs
    simp only [Bool.and_eq_true] at hs ⊢
    refine ⟨⟨⟨?_, hs.1.1.2⟩, hs.1.2⟩, hs.2⟩
    cases xs <;> rfl

mutual

/-- Every successful shorthand parse of a value whose sequences are all
non-empty yields a tree in which every enum-bearing node has a non-empty
enum. -/
theorem parsePico_enums : ∀ (v : PValue) (s : Schema),
    neLists v = true → parsePico v = .ok s → enumsNonempty s = true
  | .str val, s, _, h => by
    simp only [parsePico] at h
    rcases hcut : cut ',' val with ⟨typ, desc, fnd⟩
    rw [hcut] at h
    split at h
    · rw [Except.ok.injEq] at h
      subst h
      rfl
    · simp at h
  | .list val, s, hn, h => by
    simp only [parsePico, Except.ok.injEq] at h
    subst h
    cases val with
    | nil => simp [neLists] at hn
    | cons y ys => rfl
  | .map val, s, hn, h =>
    parseEntries_enums val
      (.mk { type := "object".data } (some []) none (some falseSchema)) s
      (by simpa [neLists] using hn) rfl h
  | .null, s, _, h => by simp [parsePico] at h
  | .bool b, s, _, h => by simp [parsePico] at h
  | .int n, s, _, h => by simp [parsePico] at h
  | .uint n, s, _, h => by simp [parsePico] at h
  | .float q, s, _, h => by simp [parsePico] at h

/-- The entry loop preserves the enum invariant of the accumulator. -/
theorem parseEntries_enums : ∀ (l : List (Str × PValue)) (acc s : Schema),
    neListsE l = true → enumsNonempty acc = true →
    parseEntries l acc = .ok s → enumsNonempty s = true
  | [], acc, s, _, hacc, h => by
    simp only [parseEntries, Except.ok.injEq] at h
    subst h
    exact hacc
  | (k, v) :: rest, acc, s, hn, hacc, h => by
    have hn2 : neLists v = true ∧ neListsE rest = true := by
      simpa [neListsE, Bool.and_eq_true] using hn
    simp only [parseEntries] at h
    rcases hc : cut '(' k with ⟨name, typ0, fp⟩
    rw [hc] at h
    rcases hcs : cutSuffix1 '?' name with ⟨pn, opt⟩
    rw [hcs] at h
    rcases hv : parsePico v with e' | property
    · rw [hv] at h
      simp at h
    rw [hv] at h
    simp only [] at h
    have hP : enumsNonempty property = true :=
      parsePico_enums v property hn2.1 hv
    cases fp with
    | false =>
      simp only [Bool.false_eq_true, not_false_eq_true, if_pos rfl] at h
      exact parseEntries_enums rest _ s hn2.2
        (enums_store_step acc pn property _ hacc hP) h
    | true =>
      rcases hm : cut ',' (trimSuffix1 ')' (trimSuffix1 ')' typ0)) with ⟨typ, desc, fdc⟩
      rw [hm] at h
      simp only [Bool.true_eq_false, if_false] at h
      by_cases harr : typ = "array".data
      · rw [if_pos harr] at h
        have hPd : enumsNonempty (if fdc = true then
            withBase (Schema.mk { type := "array".data } none (some property) none)
              { (Schema.mk { type := "array".data } none (some property) none).base
                with description := trimSpace desc }
          else Schema.mk { type := "array".data } none (some property) none) = true := by
          split
          · exact enums_withBase _ _ rfl (enums_arrayWrap property hP)
          · exact enums_arrayWrap property hP
        exact parseEntries_enums rest _ s hn2.2
          (enums_store_step acc pn _ _ hacc hPd) h
      · rw [if_neg harr] at h
        by_cases hobj : typ = "object".data
        · rw [if_pos hobj] at h
          have hPd : enumsNonempty (if fdc = true then
              withBase property { property.base with description := trimSpace desc }
            else property) = true := by
            split
            · exact enums_withBase _ _ rfl hP
            · exact hP
          exact parseEntries_enums rest _ s hn2.2
            (enums_store_step acc pn _ _ hacc hPd) h
        · rw [if_neg hobj] at h
          by_cases henm : typ = "enum".data
          · rw [if_pos henm] at h
            rcases hpe : property.base.enum with _ | xs
            · rw [hpe] at h
              simp at h
            · rw [hpe] at h
              simp only [] at h
              have hP1 : enumsNonempty (if opt = true then
                  withBase property { property.base with enum := some (xs ++ [.null]) }
                else property) = true := by
                split
                · exact enums_enumAppend property xs hP
                · exact hP
              have hPd : enumsNonempty (if fdc = true then
                  withBase (if opt = true then
                    withBase property { property.base with enum := some (xs ++ [.null]) }
                  else property)
                    { (if opt = true then
                        withBase property { property.base with enum := some (xs ++ [.null]) }
                      else property).base with description := trimSpace desc }
                else (if opt = true then
                  withBase property { property.base with enum := some (xs ++ [.null]) }
                else property)) = true := by
                split
                · exact enums_withBase _ _ rfl hP1
                · exact hP1
              exact parseEntries_enums rest _ s hn2.2
                (enums_store_step acc pn _ _ hacc hPd) h
          · rw [if_neg henm] at h
            by_cases hstar : typ = "*".data
            · rw [if_pos hstar] at h
              split at h
              · exact parseEntries_enums rest _ s hn2.2
                  (enums_setAddProps_step _ property
                    (enums_withBase acc
                      { acc.base with required := acc.base.required ++ [pn] }
                      rfl hacc) hP) h
              · exact parseEntries_enums rest _ s hn2.2
                  (enums_setAddProps_step acc property hacc hP) h
            · rw [if_neg hstar] at h
              simp at h

end

mutual

/-- The structural mapper never creates an enum: from an
invariant-satisfying accumulator, every successful field loop yields an
invariant-satisfying schema. -/
theorem mapFields_enums : ∀ (l : List (Str × PValue)) (acc s : Schema),
    enumsNonempty acc = true → mapFields l acc = .ok s →
    enumsNonempty s = true
  | [], acc, s, hacc, h => by
    simp only [mapFields, Except.ok.injEq] at h
    subst h
    exact hacc
  | (k, v) :: rest, acc, s, hacc, h => by
    simp only [mapFields] at h
    split at h
    · -- string fields
      split at h
      · exact mapFields_enums rest _ s
          (enums_withBase acc _ (by repeat first | rfl | split) hacc) h
      · exact Except.noConfusion h
    · split at h
      · -- json.Number fields
        split at h
        · exact mapFields_enums rest _ s
            (enums_withBase acc _ (by repeat first | rfl | split) hacc) h
        · exact Except.noConfusion h
      · split at h
        · -- *uint64 fields
          rcases hcu : convUint k v with e' | n
          · rw [hcu] at h
            exact Except.noConfusion h
          · rw [hcu] at h
            simp only [] at h
            exact mapFields_enums rest _ s
              (enums_withBase acc _ (by repeat first | rfl | split) hacc) h
        · split at h
          · -- bool fields
            split at h
            · exact mapFields_enums rest _ s
                (enums_withBase acc _ (by repeat first | rfl | split) hacc) h
            · exact Except.noConfusion h
          · split at h
            · -- []string field
              split at h
              · rename_i xs
                rcases hsl : toStrList k 0 xs with e' | ss
                · rw [hsl] at h
                  exact Except.noConfusion h
                · rw [hsl] at h
                  simp only [] at h
                  exact mapFields_enums rest _ s
                    (enums_withBase acc { acc.base with required := ss } rfl hacc) h
              · exact Except.noConfusion h
            · split at h
              · -- `any` field
                exact mapFields_enums rest _ s
                  (enums_withBase acc { acc.base with defaultVal := some v } rfl hacc) h
              · split at h
                · -- nested schema fields
                  rcases hms : mapSchemaField k v with e' | schema
                  · rw [hms] at h
                    exact Except.noConfusion h
                  · rw [hms] at h
                    simp only [] at h
                    have hS := mapSchemaField_enums k v schema hms
                    split at h
                    · exact mapFields_enums rest _ s
                        (enums_setItems_step acc schema hacc hS) h
                    · exact mapFields_enums rest _ s
                        (enums_setAddProps_step acc schema hacc hS) h
                · split at h
                  · -- properties field
                    rcases hmp : mapPropsField k v with e' | om
                    · rw [hmp] at h
                      exact Except.noConfusion h
                    · rw [hmp] at h
                      simp only [] at h
                      exact mapFields_enums rest _ s
                        (enums_setProperties_step acc om hacc
                          (mapPropsField_enums k v om hmp)) h
                  · split at h
                    · exact Except.noConfusion h
                    · exact Except.noConfusion h

/-- A `*jsonschema.Schema` field conversion yields an enum-invariant
schema. -/
theorem mapSchemaField_enums : ∀ (k : Str) (v : PValue) (s : Schema),
    mapSchemaField k v = .ok s → enumsNonempty s = true
  | k, .map m, s, h => by
    rw [show mapSchemaField k (.map m) =
      (match mapFields m emptySchema with
       | .error e => .error (.failedConvertField k e)
       | .ok s => .ok s) from rfl] at h
    rcases hm : mapFields m emptySchema with e' | s0
    · rw [hm] at h
      exact Except.noConfusion h
    · rw [hm] at h
      have h2 : Except.ok (ε := Err) s0 = .ok s := h
      rw [Except.ok.injEq] at h2
      subst h2
      exact mapFields_enums m emptySchema s0 rfl hm
  | _, .null, _, h => Except.noConfusion h
  | _, .bool _, _, h => Except.noConfusion h
  | _, .int _, _, h => Except.noConfusion h
  | _, .uint _, _, h => Except.noConfusion h
  | _, .float _, _, h => Except.noConfusion h
  | _, .str _, _, h => Except.noConfusion h
  | _, .list _, _, h => Except.noConfusion h

/-- A `properties` field conversion yields enum-invariant children. -/
theorem mapPropsField_enums : ∀ (k : Str) (v : PValue) (om : List (Str × Schema)),
    mapPropsField k v = .ok om → enumsNonemptyL om = true
  | k, .map m, om, h => mapProps_enums k m [] om rfl h
  | _, .null, _, h => Except.noConfusion h
  | _, .bool _, _, h => Except.noConfusion h
  | _, .int _, _, h => Except.noConfusion h
  | _, .uint _, _, h => Except.noConfusion h
  | _, .float _, _, h => Except.noConfusion h
  | _, .str _, _, h => Except.noConfusion h
  | _, .list _, _, h => Except.noConfusion h

/-- The `properties` entry loop preserves the enum invariant of the
ordered map under construction. -/
theorem mapProps_enums : ∀ (k : Str) (m : List (Str × PValue))
    (om om' : List (Str × Schema)),
    enumsNonemptyL om = true → mapProps k m om = .ok om' →
    enumsNonemptyL om' = true
  | k, [], om, om', hom, h => by
    simp only [mapProps, Except.ok.injEq] at h
    subst h
    exact hom
  | k, (mk, mv) :: rest, om, om', hom, h => by
    simp only [mapProps] at h
    rcases hpv : mapPropVal k mk mv with e' | schema
    · rw [hpv] at h
      simp at h
    · rw [hpv] at h
      simp only [] at h
      exact mapProps_enums k rest _ om'
        (enumsNonemptyL_omSet mk schema om hom
          (mapPropVal_enums k mk mv schema hpv)) h

/-- One `properties` value conversion yields an enum-invariant schema. -/
theorem mapPropVal_enums : ∀ (k mk : Str) (v : PValue) (s : Schema),
    mapPropVal k mk v = .ok s → enumsNonempty s = true
  | k, mk, .map mvm, s, h => by
    rw [show mapPropVal k mk (.map mvm) =
      (match mapFields mvm emptySchema with
       | .error e => .error (.errorInFieldKey k mk e)
       | .ok s => .ok s) from rfl] at h
    rcases hm : mapFields mvm emptySchema with e' | s0
    · rw [hm] at h
      exact Except.noConfusion h
    · rw [hm] at h
      have h2 : Except.ok (ε := Err) s0 = .ok s := h
      rw [Except.ok.injEq] at h2
      subst h2
      exact mapFields_enums mvm emptySchema s0 rfl hm
  | _, _, .null, _, h => Except.noConfusion h
  | _, _, .bool _, _, h => Except.noConfusion h
  | _, _, .int _, _, h => Except.noConfusion h
  | _, _, .uint _, _, h => Except.noConfusion h
  | _, _, .float _, _, h => Except.noConfusion h
  | _, _, .str _, _, h => Except.noConfusion h
  | _, _, .list _, _, h => Except.noConfusion h

end

/-- C8, amended: for every input whose sequence values are all non-empty,
every enum-bearing node in a successful translation carries a non-empty
enum (an empty authored sequence yields — and is the only way to yield —
an empty, non-nil Enum). -/
theorem c8_amended (v : PValue) (s : Schema) (hn : neLists v = true)
    (h : ToJSONSchema v = (some s, none)) : enumsNonempty s = true := by
  have ofPair : ∀ (r : Except Err Schema), pairOfExcept r = (some s, none) →
      r = .ok s := by
    intro r hr
    cases r with
    | ok s0 =>
      simp only [pairOfExcept, Prod.mk.injEq, Option.some.injEq] at hr
      rw [hr.1]
    | error e =>
      simp [pairOfExcept] at hr
  cases v with
  | null => simp [ToJSONSchema] at h
  | map es =>
    simp only [ToJSONSchema] at h
    by_cases h7 : isSevenType (lookupV "type".data es) = true
    · rw [if_pos h7] at h
      have := ofPair _ h
      rw [show mapToJSONSchema es = mapFields es emptySchema from rfl] at this
      exact mapFields_enums es emptySchema s rfl this
    · rw [if_neg h7] at h
      rcases hp : lookupV "properties".data es with _ | p
      · rw [hp] at h
        exact parsePico_enums _ s hn (ofPair _ h)
      · rw [hp] at h
        cases p with
        | map ps =>
          rcases hm : mapToJSONSchema es with e' | s0
          · rw [hm] at h
            simp at h
          · rw [hm] at h
            simp only [Prod.mk.injEq, Option.some.injEq] at h
            rw [← h.1]
            rw [show mapToJSONSchema es = mapFields es emptySchema from rfl] at hm
            exact enums_withBase _ _ rfl (mapFields_enums es emptySchema s0 rfl hm)
        | null => exact parsePico_enums _ s hn (ofPair _ h)
        | bool b => exact parsePico_enums _ s hn (ofPair _ h)
        | int n => exact parsePico_enums _ s hn (ofPair _ h)
        | uint n => exact parsePico_enums _ s hn (ofPair _ h)
        | float q => exact parsePico_enums _ s hn (ofPair _ h)
        | str s' => exact parsePico_enums _ s hn (ofPair _ h)
        | list xs => exact parsePico_enums _ s hn (ofPair _ h)
  | bool b => exact parsePico_enums _ s hn (ofPair _ h)
  | int n => exact parsePico_enums _ s hn (ofPair _ h)
  | uint n => exact parsePico_enums _ s hn (ofPair _ h)
  | float q => exact parsePico_enums _ s hn (ofPair _ h)
  | str s' => exact parsePico_enums _ s hn (ofPair _ h)
  | list xs => exact parsePico_enums _ s hn (ofPair _ h)

/-- C8, counterexample: translating the empty sequence succeeds with a
node that carries an Enum — a non-nil but empty one — so the claimed
invariant fails as stated. -/
theorem c8_counterexample :
    ∃ s, ToJSONSchema (.list []) = (some s, none) ∧ s.base.enum = some [] ∧
      enumsNonempty s = false :=
  ⟨_, rfl, rfl, rfl⟩

/-- C8, witness for the amended theorem: a one-element enum comes out
non-empty. -/
theorem c8_witness :
    enumsNonempty (.mk { enum := some [.str "red".data] } none none none) = true :=
  c8_amended (.list [.str "red".data]) _ rfl rfl

/-! ## C9 -/

/-- Sorting a list of strings twice is the same as sorting it once. -/
theorem insertionSort_idem (l : List Str) :
    (l.insertionSort (· ≤ ·)).insertionSort (· ≤ ·) =
      l.insertionSort (· ≤ ·) :=
  List.Sorted.insertionSort_eq (List.sorted_insertionSort _ _)

mutual

/-- The Schema Normalizer is idempotent at every node reachable through
`Properties` and `Items`. -/
theorem sortSchemaSlices_idem : ∀ s : Schema,
    sortSchemaSlices (sortSchemaSlices s) = sortSchemaSlices s
  | .mk b none none a => by
    simp only [sortSchemaSlices, insertionSort_idem]
  | .mk b none (some i) a => by
    simp only [sortSchemaSlices, insertionSort_idem, sortSchemaSlices_idem i]
  | .mk b (some l) none a => by
    simp only [sortSchemaSlices, insertionSort_idem, sortProps_idem l]
  | .mk b (some l) (some i) a => by
    simp only [sortSchemaSlices, insertionSort_idem, sortProps_idem l,
      sortSchemaSlices_idem i]

/-- Idempotence over the `Properties` entries. -/
theorem sortProps_idem : ∀ l : List (Str × Schema),
    sortProps (sortProps l) = sortProps l
  | [] => rfl
  | (k, s) :: rest => by
    simp only [sortProps, sortSchemaSlices_idem s, sortProps_idem rest]

end

/-- C9: canonicalization is idempotent.  In the source, `ConvertSchema`
sorts its argument in place and then encodes it, so calling it twice on
the same node encodes `sortSchemaSlices (sortSchemaSlices s)` the second
time; the result is identical to the first call's, and normalizing an
already-normalized node — `Required` sorted at every node reachable
through `Properties` and `Items` — is a no-op. -/
theorem c9_canonicalize_idempotent : ∀ s : Schema,
    ConvertSchema (sortSchemaSlices s) = ConvertSchema s ∧
    sortSchemaSlices (sortSchemaSlices s) = sortSchemaSlices s :=
  fun s => ⟨congrArg jencode (sortSchemaSlices_idem s), sortSchemaSlices_idem s⟩
